import Mathlib

/-!
Shallow embedding of the label-generation engine of `src/app.py`
(LabelGenerator).  The pipeline is

  dataframe → `_normalize_orders_dataframe` → `_prepare_label_cards`
            → `build_labels_pdf` (grid layout + dine-in summary page)

Strings are Lean `String`s; the Python `str.strip` / `str.lower`
operations are modelled character-wise (`trimStr`, `normKey`) and
ordinal string comparison is the lexicographic order on the underlying
character lists (`nameLe`).  Numeric cells are modelled as the result
of `pd.to_numeric(..., errors="coerce")`: `none` when the cell does not
parse as a number, `some q` (a rational) when it parses finitely;
`astype(int)` truncates toward zero and `.clip(lower=0)` clamps at
zero (`coerceCount`).  Non-finite parse results ("inf", "1e400"),
which make `astype(int)` raise, are modelled by `NumValue` and the
fallible coercion `coerceCountChecked`.  PDF drawing is abstracted to
an event trace
(`PdfEvent`): the geometry of a cell is retained as its (column, row)
grid coordinates, `showPage` finalizes a page, and the dine-in summary
is kept as the structured data handed to the table collaborator.
-/

/-- Characterwise model of Python `str.strip()`: drop leading and
trailing whitespace. -/
def trimChars (l : List Char) : List Char :=
  ((l.dropWhile (fun c => c.isWhitespace)).reverse.dropWhile (fun c => c.isWhitespace)).reverse

/-- Python `s.strip()` on a string. -/
def trimStr (s : String) : String :=
  ⟨trimChars s.data⟩

/-- Python `col.strip().lower()`, the key normalization used for the
header lookup in `_normalize_orders_dataframe` (src/app.py:285). -/
def normKey (s : String) : String :=
  ⟨(trimChars s.data).map Char.toLower⟩

/-- The alias table of `_normalize_orders_dataframe`
(src/app.py:274-283), in source order: alias spelling → canonical
field. -/
def column_aliases : List (String × String) :=
  [("name", "name"),
   ("customer", "name"),
   ("carry out", "carry_out"),
   ("carryout", "carry_out"),
   ("carry-out", "carry_out"),
   ("dine in", "dine_in"),
   ("dine-in", "dine_in"),
   ("dinein", "dine_in")]

/-- The dict comprehension `{col.strip().lower(): col for col in
dataframe.columns}` (src/app.py:285): the value for a key is the last
column whose normalized form equals the key (later dict entries
overwrite earlier ones). -/
def lookupHeader (cols : List String) (key : String) : Option String :=
  (cols.filter (fun c => normKey c = key)).getLast?

/-- The `rename_map` loop of src/app.py:288-290: walk the alias table
in order; the first alias found in the lookup wins for each canonical
field.  Entries are (canonical field, original column). -/
def buildRenameMap (cols : List String) : List (String × String) :=
  column_aliases.foldl
    (fun rename_map p =>
      match lookupHeader cols p.1 with
      | some orig =>
          if rename_map.any (fun q => q.1 = p.2) then rename_map
          else rename_map ++ [(p.2, orig)]
      | none => rename_map)
    []

/-- The three canonical fields checked at src/app.py:292. -/
def canonicalFields : List String := ["name", "carry_out", "dine_in"]

/-- The `missing` list of src/app.py:292: canonical fields that did not
resolve to any input header. -/
def missingFields (cols : List String) : List String :=
  canonicalFields.filter (fun f => !(buildRenameMap cols).any (fun q => q.1 = f))

/-- The function `_normalize_orders_dataframe` (src/app.py:273-296), restricted to
what it decides: either the rename map (canonical field → original
header) or the `ValueError` message listing every missing field. -/
def normalize_orders_dataframe (cols : List String) :
    Except String (List (String × String)) :=
  let missing := missingFields cols
  if missing.isEmpty then Except.ok (buildRenameMap cols)
  else Except.error ("Missing required columns: " ++ String.intercalate ", " missing)

/-- One spreadsheet cell: its text (used for the `name` column) and the
result of `pd.to_numeric(..., errors="coerce")` on it — `none` when it
does not parse as a number, `some q` when it parses to the finite value
`q`.  A cell that parses to a non-finite float makes the real pipeline
raise in `.astype(int)`; that outcome is modelled by `NumValue` below,
so the frame-level pipeline here covers the finite-or-unparsable
inputs on which the stage cannot raise. -/
structure Cell where
  text : String
  numeric : Option Rat
deriving DecidableEq

/-- A dataframe: the column headers and the rows, each row an
association list from original header to cell. -/
structure DataFrame where
  columns : List String
  rows : List (List (String × Cell))
deriving DecidableEq

/-- Fetch a cell by column header (a dataframe row always carries all
of its columns; the default is never hit on well-formed frames). -/
def getCell (row : List (String × Cell)) (col : String) : Cell :=
  (row.lookup col).getD ⟨"", none⟩

/-- A row after renaming to the canonical schema: the `name` cell text
and the numeric parse results of the two count cells. -/
structure RawOrderRow where
  name : String
  carry_out : Option Rat
  dine_in : Option Rat
deriving DecidableEq

/-- Project the canonical columns out of a dataframe using the rename
map produced by the normalizer (the rename at src/app.py:296 followed
by the column accesses of `_prepare_label_cards`). -/
def extractRows (df : DataFrame) (rm : List (String × String)) : List RawOrderRow :=
  df.rows.map (fun row =>
    { name := (getCell row ((rm.lookup "name").getD "")).text,
      carry_out := (getCell row ((rm.lookup "carry_out").getD "")).numeric,
      dine_in := (getCell row ((rm.lookup "dine_in").getD "")).numeric })

/-- Truncation toward zero of a rational, the behaviour of
`.astype(int)` on a float value. -/
def truncInt (q : Rat) : Int :=
  q.num.tdiv q.den

/-- Model of `pd.to_numeric(col).fillna(0).astype(int).clip(lower=0)`
on one cell (src/app.py:223-228), restricted to the NaN/finite fragment
on which `.astype(int)` cannot raise: an unparsable cell (`none`)
becomes 0, a finite parsed value is truncated toward zero and clamped
at 0 (`Int.toNat` realizes the clamp).  The full behaviour, including
the ValueError on a non-finite parse, is `coerceCountChecked` below. -/
def coerceCount (v : Option Rat) : Nat :=
  (truncInt (v.getD 0)).toNat

/-- A row with coerced counts; also the shape of an aggregated order. -/
structure OrderRow where
  name : String
  carry_out : Nat
  dine_in : Nat
deriving DecidableEq

/-- Lines 220-228 of src/app.py: trim the name, drop rows whose trimmed
name is empty, coerce both counts. -/
def cleanRows (rows : List RawOrderRow) : List OrderRow :=
  (rows.map (fun r =>
    { name := trimStr r.name,
      carry_out := coerceCount r.carry_out,
      dine_in := coerceCount r.dine_in : OrderRow })).filter (fun r => r.name ≠ "")

/-- Ordinal (code-point lexicographic) string order, the order Python
and pandas use to compare strings. -/
def nameLe (a b : String) : Prop :=
  a.data ≤ b.data

instance : DecidableRel nameLe :=
  fun a b => inferInstanceAs (Decidable (a.data ≤ b.data))

/-- The groupby/sum/sort of src/app.py:230-234: one output row per
distinct cleaned name, counts summed over the group, rows sorted
ascending by name.  (`groupby("name")` already sorts by the key; the
following `sort_values("name")` re-sorts the same order, so a single
sort is the faithful composite.) -/
def aggregate (rows : List RawOrderRow) : List OrderRow :=
  let cleaned := cleanRows rows
  let names := ((cleaned.map (fun r => r.name)).dedup).insertionSort nameLe
  names.map (fun n =>
    { name := n,
      carry_out := ((cleaned.filter (fun r => r.name = n)).map (fun r => r.carry_out)).sum,
      dine_in := ((cleaned.filter (fun r => r.name = n)).map (fun r => r.dine_in)).sum })

/-- The function `_required_label_count` (src/app.py:299-303). -/
def required_label_count (carry_out_total : Nat) : Nat :=
  if carry_out_total ≤ 0 then 0
  else carry_out_total / 2 + carry_out_total % 2

/-- A label card (src/app.py:37-42). -/
structure LabelCard where
  name : String
  count : Option Nat
  doubles : Option Nat := none
  singles : Option Nat := none
deriving DecidableEq

/-- The cards the sequencing loop emits for one aggregated order
(src/app.py:249-252): nothing when the carry-out total is not
positive, otherwise one primary carry card followed by
`required_label_count - 1` continuation cards. -/
def cardsForOrder (r : OrderRow) : List LabelCard :=
  if r.carry_out ≤ 0 then []
  else { name := r.name, count := some r.carry_out } ::
       List.replicate (required_label_count r.carry_out - 1)
         { name := r.name, count := none }

/-- One iteration of the sequencing loop of src/app.py:239-252 on the
state (emitted cards, total_doubles, total_singles). -/
def sequenceStep (acc : List LabelCard × Nat × Nat) (r : OrderRow) :
    List LabelCard × Nat × Nat :=
  if r.carry_out ≤ 0 then acc
  else
    (acc.1 ++
       ({ name := r.name, count := some r.carry_out } ::
        List.replicate (required_label_count r.carry_out - 1)
          { name := r.name, count := none }),
     acc.2.1 + r.carry_out / 2,
     acc.2.2 + r.carry_out % 2)

/-- The full sequencing loop, started from no cards and zero totals. -/
def sequenceState (agg : List OrderRow) : List LabelCard × Nat × Nat :=
  agg.foldl sequenceStep ([], 0, 0)

/-- The pack-summary card appended at src/app.py:254-262. -/
def packSummaryCard (total_doubles total_singles : Nat) : LabelCard :=
  { name := "Pack Summary", count := none,
    doubles := some total_doubles, singles := some total_singles }

/-- The label card list returned by `_prepare_label_cards`: the loop
output plus, when `total_doubles or total_singles` is truthy, the
pack-summary card. -/
def sequenceLabelCards (agg : List OrderRow) : List LabelCard :=
  let s := sequenceState agg
  if s.2.1 ≠ 0 ∨ s.2.2 ≠ 0 then s.1 ++ [packSummaryCard s.2.1 s.2.2] else s.1

/-- The dine-in summary list of src/app.py:264-268: one (name, count)
pair per aggregated row with positive dine-in count, in aggregate
order. -/
def dineInSummary (agg : List OrderRow) : List (String × Nat) :=
  (agg.filter (fun r => 0 < r.dine_in)).map (fun r => (r.name, r.dine_in))

/-- The function `_prepare_label_cards` (src/app.py:218-270) end to end: normalize
(propagating its error), aggregate, sequence, and build the dine-in
summary. -/
def prepare_label_cards (df : DataFrame) :
    Except String (List LabelCard × List (String × Nat)) :=
  match normalize_orders_dataframe df.columns with
  | Except.error e => Except.error e
  | Except.ok rm =>
      let agg := aggregate (extractRows df rm)
      Except.ok (sequenceLabelCards agg, dineInSummary agg)

/-- Grid constant `LABEL_COLUMNS` (src/app.py:19). -/
def LABEL_COLUMNS : Nat := 3

/-- Grid constant `LABEL_ROWS` (src/app.py:20). -/
def LABEL_ROWS : Nat := 10

/-- The product `labels_per_page = LABEL_COLUMNS * LABEL_ROWS` (src/app.py:102). -/
def labels_per_page : Nat := LABEL_COLUMNS * LABEL_ROWS

/-- One typographic inch in points. -/
def inchPt : Rat := 72

/-- The margin `PAGE_MARGIN_X = 0.2 * inch` (src/app.py:25). -/
def PAGE_MARGIN_X : Rat := (1 / 5) * inchPt

/-- Letter page width, 8.5 inches, in points. -/
def letterWidth : Rat := (17 / 2) * inchPt

/-- What `draw_dine_in_summary` hands to the rendering collaborator:
either the no-entries message or the table data with its column
widths. -/
inductive SummaryBody where
  | noEntries (message : String)
  | table (data : List (List String)) (colWidths : List Rat)
deriving DecidableEq

/-- The rendered dine-in summary page content: title plus body. -/
structure SummaryRender where
  title : String
  body : SummaryBody
deriving DecidableEq

/-- The function `draw_dine_in_summary` (src/app.py:167-215), abstracted to the
structured content it draws: the title, then either the no-entries
message or the header row plus one row per entry, with column widths
0.7 and 0.3 of the available printable width. -/
def draw_dine_in_summary (dine_in_summary : List (String × Nat)) (page_width : Rat) :
    SummaryRender :=
  let available_width := page_width - 2 * PAGE_MARGIN_X
  { title := "Dine-In Summary",
    body :=
      if dine_in_summary.isEmpty then
        SummaryBody.noEntries "No dine-in orders."
      else
        SummaryBody.table
          (["Name", "Number"] :: dine_in_summary.map (fun p => [p.1, toString p.2]))
          [available_width * (7 / 10), available_width * (3 / 10)] }

/-- One abstract drawing event of the PDF canvas. -/
inductive PdfEvent where
  | showPage
  | drawCard (card : LabelCard) (column_index row_index : Nat)
  | drawSummary (render : SummaryRender)
deriving DecidableEq

/-- The events one iteration of the layout loop (src/app.py:105-117)
produces for the card at `label_index`: a page break when
`label_index and position == 0`, then the card drawn at its grid
cell. -/
def labelBlock (label_index : Nat) (card : LabelCard) : List PdfEvent :=
  let position := label_index % labels_per_page
  let column_index := position % LABEL_COLUMNS
  let row_index := position / LABEL_COLUMNS
  (if label_index ≠ 0 ∧ position = 0 then [PdfEvent.showPage] else []) ++
    [PdfEvent.drawCard card column_index row_index]

/-- The layout loop from a given running index (the loop itself starts
at 0). -/
def labelEventsFrom (label_index : Nat) : List LabelCard → List PdfEvent
  | [] => []
  | card :: rest => labelBlock label_index card ++ labelEventsFrom (label_index + 1) rest

/-- The tail of `build_labels_pdf` after the cards are prepared (src/app.py:105-123):
the layout loop, the closing `showPage` when at least one label was
drawn, then the dine-in summary drawn on the current page. -/
def build_labels_events (cards : List LabelCard) (dine : List (String × Nat)) :
    List PdfEvent :=
  labelEventsFrom 0 cards ++
    (if cards.isEmpty then [] else [PdfEvent.showPage]) ++
    [PdfEvent.drawSummary (draw_dine_in_summary dine letterWidth)]

/-- The function `build_labels_pdf` (src/app.py:96-125) as an event trace, with the
normalizer error propagated (src/app.py:73-77 surface it to the
caller before any document bytes exist). -/
def build_labels_pdf (df : DataFrame) : Except String (List PdfEvent) :=
  match prepare_label_cards df with
  | Except.error e => Except.error e
  | Except.ok (cards, dine) => Except.ok (build_labels_events cards dine)

/-- Cut an event trace into the pages of the finished document:
`showPage` finalizes the current page; `save` finalizes whatever is on
the canvas at the end. -/
def splitPages : List PdfEvent → List (List PdfEvent)
  | [] => [[]]
  | PdfEvent.showPage :: rest => [] :: splitPages rest
  | e :: rest =>
      match splitPages rest with
      | [] => [[e]]
      | p :: ps => (e :: p) :: ps

/-- Recognizer for card-drawing events. -/
def PdfEvent.isDrawCard : PdfEvent → Bool
  | PdfEvent.drawCard _ _ _ => true
  | _ => false

/-- Recognizer for page breaks. -/
def PdfEvent.isShowPage : PdfEvent → Bool
  | PdfEvent.showPage => true
  | _ => false

/-- Result of `pd.to_numeric(cell, errors="coerce")` in full: a cell
that fails to parse gives NaN, a finite number gives its value, and a
spelling such as "inf" or "Infinity", or an overflowing literal such
as "1e400", gives a signed infinity.  `Cell.numeric` above covers only
the NaN/finite fragment; the infinite outcomes are exactly what makes
`.astype(int)` raise. -/
inductive NumValue where
  | nan
  | finite (q : Rat)
  | posInf
  | negInf
deriving DecidableEq

/-- Model of `.fillna(0)` on one value: NaN becomes 0, everything else
— infinities included — passes through. -/
def fillnaZero : NumValue → NumValue
  | NumValue.nan => NumValue.finite 0
  | v => v

/-- The pandas `ValueError` message of `.astype(int)` on a non-finite
value. -/
def nonFiniteMsg : String := "Cannot convert non-finite values (NA or inf) to integer"

/-- Model of `.astype(int)` on one value: truncation toward zero on a
finite value, the pandas `ValueError` on NaN or an infinity.  (Int64
overflow of huge finite values is not modelled; the label counts in
scope are small.) -/
def astype_int : NumValue → Except String Int
  | NumValue.finite q => Except.ok (truncInt q)
  | _ => Except.error nonFiniteMsg

/-- The cell coercion of src/app.py:223-228 with its error path kept:
`to_numeric` result → `fillna(0)` → `astype(int)`, then `Int.toNat`
models `.clip(lower=0)`. -/
def coerceCountChecked (v : NumValue) : Except String Nat :=
  (astype_int (fillnaZero v)).map (fun i => i.toNat)

/-- The coercion over a whole column, as `.astype(int)` acts on the
series: any non-finite cell raises for the whole column. -/
def coerceColumnChecked (vs : List NumValue) : Except String (List Nat) :=
  vs.mapM coerceCountChecked

/-! ### Lemmas about the label card sequencer -/

/-- Every card the per-order loop body emits is a carry or continuation
card: its pack-summary fields are absent. -/
theorem cardsForOrder_no_pack_fields (r : OrderRow) (c : LabelCard)
    (hc : c ∈ cardsForOrder r) : c.doubles = none ∧ c.singles = none := by
  unfold cardsForOrder at hc
  by_cases h : r.carry_out ≤ 0
  · rw [if_pos h] at hc
    simp at hc
  · rw [if_neg h] at hc
    rcases List.mem_cons.mp hc with hc | hc
    · subst hc; exact ⟨rfl, rfl⟩
    · have := List.eq_of_mem_replicate hc
      subst this; exact ⟨rfl, rfl⟩

/-- Closed form of the sequencing loop from an arbitrary state: the
loop appends the per-order card blocks and accumulates the doubles and
singles totals. -/
theorem foldl_sequenceStep (agg : List OrderRow) :
    ∀ (cs : List LabelCard) (d s : Nat),
      agg.foldl sequenceStep (cs, d, s) =
        (cs ++ (agg.map cardsForOrder).flatten,
         d + (agg.map (fun r => r.carry_out / 2)).sum,
         s + (agg.map (fun r => r.carry_out % 2)).sum) := by
  induction agg with
  | nil => intro cs d s; simp
  | cons r rest ih =>
      intro cs d s
      by_cases h : r.carry_out ≤ 0
      · have h0 : r.carry_out = 0 := Nat.le_zero.mp h
        rw [List.foldl_cons, sequenceStep, if_pos h, ih]
        simp [cardsForOrder, h0]
      · rw [List.foldl_cons, sequenceStep, if_neg h, ih]
        simp only [List.map_cons, List.flatten_cons, List.sum_cons]
        rw [cardsForOrder, if_neg h]
        refine congrArg₂ Prod.mk ?_ (congrArg₂ Prod.mk ?_ ?_)
        · simp
        · omega
        · omega

/-- The sequencing loop started from the empty state. -/
theorem sequenceState_eq (agg : List OrderRow) :
    sequenceState agg =
      ((agg.map cardsForOrder).flatten,
       (agg.map (fun r => r.carry_out / 2)).sum,
       (agg.map (fun r => r.carry_out % 2)).sum) := by
  simpa [sequenceState] using foldl_sequenceStep agg [] 0 0

/-- C1: for every aggregated order with positive carry-out the Label
Card Sequencer emits exactly `required_labels = ceil(carry_out / 2)`
cards — first one primary carry card bearing the full carry-out total,
then `required_labels - 1` continuation cards with no count, so exactly
one card of the block has a non-null count — while an order with zero
carry-out contributes no cards; the card stream of the loop is the
concatenation of these per-order blocks. -/
theorem labelSequencer_per_order (agg : List OrderRow) (r : OrderRow) :
    (sequenceState agg).1 = (agg.map cardsForOrder).flatten ∧
    (0 < r.carry_out →
      required_label_count r.carry_out = (r.carry_out + 1) / 2 ∧
      cardsForOrder r =
        { name := r.name, count := some r.carry_out } ::
          List.replicate (required_label_count r.carry_out - 1)
            { name := r.name, count := none } ∧
      (cardsForOrder r).length = required_label_count r.carry_out ∧
      (cardsForOrder r).countP (fun c => c.count.isSome) = 1) ∧
    (r.carry_out = 0 → cardsForOrder r = []) := by
  refine ⟨by rw [sequenceState_eq], ?_, ?_⟩
  · intro hpos
    have h : ¬ r.carry_out ≤ 0 := by omega
    have hreq : required_label_count r.carry_out = (r.carry_out + 1) / 2 := by
      rw [required_label_count, if_neg h]; omega
    have hcards : cardsForOrder r =
        { name := r.name, count := some r.carry_out } ::
          List.replicate (required_label_count r.carry_out - 1)
            { name := r.name, count := none } := by
      rw [cardsForOrder, if_neg h]
    refine ⟨hreq, hcards, ?_, ?_⟩
    · rw [hcards]
      simp only [List.length_cons, List.length_replicate]
      have : 1 ≤ required_label_count r.carry_out := by
        rw [hreq]; omega
      omega
    · rw [hcards, List.countP_cons]
      have : (List.replicate (required_label_count r.carry_out - 1)
          ({ name := r.name, count := none } : LabelCard)).countP
            (fun c => c.count.isSome) = 0 := by
        rw [List.countP_eq_zero]
        intro a ha
        rw [List.eq_of_mem_replicate ha]
        simp
      rw [this]
      simp
  · intro h0
    rw [cardsForOrder, if_pos (by omega)]

/-- Witness for `labelSequencer_per_order` at the order (Bob, 5, 0). -/
theorem labelSequencer_per_order_witness :
    required_label_count 5 = (5 + 1) / 2 ∧
    cardsForOrder ⟨"Bob", 5, 0⟩ =
      { name := "Bob", count := some 5 } ::
        List.replicate (required_label_count 5 - 1) { name := "Bob", count := none } ∧
    cardsForOrder ⟨"Bob", 0, 7⟩ = [] :=
  ⟨((labelSequencer_per_order [] ⟨"Bob", 5, 0⟩).2.1 (by decide)).1,
   ((labelSequencer_per_order [] ⟨"Bob", 5, 0⟩).2.1 (by decide)).2.1,
   (labelSequencer_per_order [] ⟨"Bob", 0, 7⟩).2.2 rfl⟩

/-- C2: the running totals of the sequencing loop are the sums of the
per-name doubles (`carry_out / 2`) and singles (`carry_out % 2`), they
satisfy `2 * doubles + singles = total carry-out`, and exactly when one
of them is non-zero a single pack-summary card bearing them is appended
as the final card — every earlier card lacks the pack fields — while
zero totals yield no summary card and an empty label sequence. -/
theorem packSummary_final_card (agg : List OrderRow) :
    2 * (agg.map (fun r => r.carry_out / 2)).sum +
        (agg.map (fun r => r.carry_out % 2)).sum =
      (agg.map (fun r => r.carry_out)).sum ∧
    (sequenceState agg).2.1 = (agg.map (fun r => r.carry_out / 2)).sum ∧
    (sequenceState agg).2.2 = (agg.map (fun r => r.carry_out % 2)).sum ∧
    ((agg.map (fun r => r.carry_out / 2)).sum ≠ 0 ∨
        (agg.map (fun r => r.carry_out % 2)).sum ≠ 0 →
      sequenceLabelCards agg =
        (sequenceState agg).1 ++
          [packSummaryCard ((agg.map (fun r => r.carry_out / 2)).sum)
            ((agg.map (fun r => r.carry_out % 2)).sum)] ∧
      ∀ c ∈ (sequenceState agg).1, c.doubles = none ∧ c.singles = none) ∧
    ((agg.map (fun r => r.carry_out / 2)).sum = 0 ∧
        (agg.map (fun r => r.carry_out % 2)).sum = 0 →
      sequenceLabelCards agg = [] ∧ (sequenceState agg).1 = []) := by
  have hsum : 2 * (agg.map (fun r => r.carry_out / 2)).sum +
      (agg.map (fun r => r.carry_out % 2)).sum =
      (agg.map (fun r => r.carry_out)).sum := by
    induction agg with
    | nil => simp
    | cons r t ih =>
        simp only [List.map_cons, List.sum_cons]
        have := Nat.div_add_mod r.carry_out 2
        omega
  refine ⟨hsum, by rw [sequenceState_eq], by rw [sequenceState_eq], ?_, ?_⟩
  · intro hne
    constructor
    · rw [sequenceLabelCards, sequenceState_eq]
      dsimp only
      rw [if_pos hne]
    · intro c hc
      rw [sequenceState_eq] at hc
      rcases List.mem_flatten.mp hc with ⟨blk, hblk, hcblk⟩
      rcases List.mem_map.mp hblk with ⟨r, _, hr⟩
      exact cardsForOrder_no_pack_fields r c (hr ▸ hcblk)
  · intro ⟨hd, hs⟩
    have hall : ∀ r ∈ agg, r.carry_out = 0 := by
      intro r hr
      have h2 := (List.sum_eq_zero_iff).mp hd _ (List.mem_map_of_mem _ hr)
      have h3 := (List.sum_eq_zero_iff).mp hs _ (List.mem_map_of_mem _ hr)
      simp only at h2 h3
      omega
    have hflat : (agg.map cardsForOrder).flatten = [] := by
      rw [List.flatten_eq_nil_iff]
      intro s hs'
      rcases List.mem_map.mp hs' with ⟨r, hr, hrs⟩
      rw [← hrs, cardsForOrder, if_pos (by rw [hall r hr])]
    constructor
    · rw [sequenceLabelCards, sequenceState_eq]
      dsimp only
      rw [if_neg (by rw [hd, hs]; simp), hflat]
    · rw [sequenceState_eq]
      exact hflat

/-- Witness for `packSummary_final_card` with the single order
(Bob, 5, 0): totals 2 and 1 are non-zero, so the pack-summary card is
appended last. -/
theorem packSummary_final_card_witness :
    sequenceLabelCards [⟨"Bob", 5, 0⟩] =
      (sequenceState [⟨"Bob", 5, 0⟩]).1 ++
        [packSummaryCard ((([⟨"Bob", 5, 0⟩] : List OrderRow).map
            (fun r => r.carry_out / 2)).sum)
          ((([⟨"Bob", 5, 0⟩] : List OrderRow).map
            (fun r => r.carry_out % 2)).sum)] :=
  ((packSummary_final_card [⟨"Bob", 5, 0⟩]).2.2.2.1 (by decide)).1

/-! ### Lemmas about the grid layout engine -/

/-- The page capacity is 30 cells. -/
theorem labels_per_page_eq : labels_per_page = 30 := rfl

/-- Splitting the empty trace gives one empty page. -/
theorem splitPages_nil : splitPages [] = [[]] := rfl

/-- A `showPage` event finalizes the current (so far empty) page. -/
theorem splitPages_showPage (rest : List PdfEvent) :
    splitPages (PdfEvent.showPage :: rest) = [] :: splitPages rest := rfl

/-- A card-drawing event joins the current page. -/
theorem splitPages_drawCard (c : LabelCard) (i j : Nat) (rest : List PdfEvent) :
    splitPages (PdfEvent.drawCard c i j :: rest) =
      match splitPages rest with
      | [] => [[PdfEvent.drawCard c i j]]
      | p :: ps => (PdfEvent.drawCard c i j :: p) :: ps := rfl

/-- A summary-drawing event joins the current page. -/
theorem splitPages_drawSummary (s : SummaryRender) (rest : List PdfEvent) :
    splitPages (PdfEvent.drawSummary s :: rest) =
      match splitPages rest with
      | [] => [[PdfEvent.drawSummary s]]
      | p :: ps => (PdfEvent.drawSummary s :: p) :: ps := rfl

/-- An event trace always cuts into at least one page. -/
theorem splitPages_ne_nil : ∀ es : List PdfEvent, splitPages es ≠ [] := by
  intro es
  induction es with
  | nil => simp [splitPages_nil]
  | cons e rest ih =>
      cases e with
      | showPage => simp [splitPages_showPage]
      | drawCard c i j =>
          rw [splitPages_drawCard]
          rcases splitPages rest with _ | ⟨p, ps⟩ <;> simp
      | drawSummary s =>
          rw [splitPages_drawSummary]
          rcases splitPages rest with _ | ⟨p, ps⟩ <;> simp

/-- Prepending a run of non-`showPage` events extends the first page of
the split. -/
theorem splitPages_draw_prefix (ds : List PdfEvent)
    (hds : ∀ e ∈ ds, e.isShowPage = false) :
    ∀ (es : List PdfEvent) (q : List PdfEvent) (qs : List (List PdfEvent)),
      splitPages es = q :: qs → splitPages (ds ++ es) = (ds ++ q) :: qs := by
  induction ds with
  | nil => intro es q qs h; simpa using h
  | cons d ds ih =>
      intro es q qs h
      have hd : d.isShowPage = false := hds d (by simp)
      have ih2 := ih (fun e he => hds e (by simp [he])) es q qs h
      rw [List.cons_append]
      cases d with
      | showPage => simp [PdfEvent.isShowPage] at hd
      | drawCard c i j =>
          rw [splitPages_drawCard, ih2]
          rfl
      | drawSummary s =>
          rw [splitPages_drawSummary, ih2]
          rfl


/-- The concatenation of all pages is the trace with its page breaks
removed. -/
theorem splitPages_flatten : ∀ es : List PdfEvent,
    (splitPages es).flatten = es.filter (fun e => !e.isShowPage) := by
  intro es
  induction es with
  | nil => simp [splitPages_nil]
  | cons e rest ih =>
      cases e with
      | showPage =>
          rw [splitPages_showPage]
          simpa [PdfEvent.isShowPage] using ih
      | drawCard c i j =>
          rw [splitPages_drawCard]
          rcases h : splitPages rest with _ | ⟨p, ps⟩
          · exact absurd h (splitPages_ne_nil rest)
          · rw [h] at ih
            simpa [PdfEvent.isShowPage] using ih
      | drawSummary s =>
          rw [splitPages_drawSummary]
          rcases h : splitPages rest with _ | ⟨p, ps⟩
          · exact absurd h (splitPages_ne_nil rest)
          · rw [h] at ih
            simpa [PdfEvent.isShowPage] using ih

/-- The layout loop distributes over list concatenation, shifting the
running index. -/
theorem labelEventsFrom_append (xs ys : List LabelCard) :
    ∀ k, labelEventsFrom k (xs ++ ys) =
      labelEventsFrom k xs ++ labelEventsFrom (k + xs.length) ys := by
  induction xs with
  | nil => intro k; simp [labelEventsFrom]
  | cons c rest ih =>
      intro k
      rw [List.cons_append, labelEventsFrom, labelEventsFrom, ih (k + 1), List.append_assoc]
      have : k + 1 + rest.length = k + (c :: rest).length := by
        simp [List.length_cons]; omega
      rw [this]

/-- A run of cards that stays inside one page (no index in the run is a
positive multiple of the page capacity) produces only card-drawing
events, one per card. -/
theorem labelEventsFrom_no_break : ∀ (cards : List LabelCard) (k : Nat),
    k % 30 + cards.length ≤ 30 → (k % 30 = 0 → k = 0) →
    (∀ e ∈ labelEventsFrom k cards, e.isDrawCard = true) ∧
      (labelEventsFrom k cards).length = cards.length := by
  intro cards
  induction cards with
  | nil => intro k _ _; exact ⟨by intro e he; simp [labelEventsFrom] at he, rfl⟩
  | cons c rest ih =>
      intro k hlen hk
      have hcond : ¬ (k ≠ 0 ∧ k % labels_per_page = 0) := by
        rw [labels_per_page_eq]
        rintro ⟨h1, h2⟩
        exact h1 (hk h2)
      have hblock : labelBlock k c =
          [PdfEvent.drawCard c (k % labels_per_page % LABEL_COLUMNS)
            (k % labels_per_page / LABEL_COLUMNS)] := by
        rw [labelBlock]
        rw [if_neg hcond]
        rfl
      have hrest : (∀ e ∈ labelEventsFrom (k + 1) rest, e.isDrawCard = true) ∧
          (labelEventsFrom (k + 1) rest).length = rest.length := by
        rcases rest with _ | ⟨c2, rest2⟩
        · exact ⟨by intro e he; simp [labelEventsFrom] at he, rfl⟩
        · apply ih
          · simp only [List.length_cons] at hlen ⊢
            omega
          · intro hmod
            simp only [List.length_cons] at hlen
            omega
      constructor
      · intro e he
        rw [labelEventsFrom, hblock] at he
        rcases List.mem_append.mp he with he | he
        · rcases List.mem_singleton.mp he with rfl
          rfl
        · exact hrest.1 e he
      · rw [labelEventsFrom, hblock, List.length_append, hrest.2]
        simp only [List.length_cons, List.length_nil]
        omega

/-- A card-drawing event is not a page break. -/
theorem isDrawCard_not_showPage (e : PdfEvent) (h : e.isDrawCard = true) :
    e.isShowPage = false := by
  cases e with
  | showPage => simp [PdfEvent.isDrawCard] at h
  | drawCard c i j => rfl
  | drawSummary s => rfl

/-- Pages of a page-aligned suffix of the layout loop: started at a
positive multiple of 30 the trace opens with a page break, and the
split up to the closing break consists of pages of at most 30 drawing
events each. -/
theorem splitPages_label_chunk :
    ∀ (n : Nat) (cards : List LabelCard), cards.length ≤ n →
      ∀ (k : Nat) (tail : List PdfEvent), k % 30 = 0 → k ≠ 0 →
        ∃ pages,
          splitPages (labelEventsFrom k cards ++ PdfEvent.showPage :: tail) =
            ([] : List PdfEvent) :: (pages ++ splitPages tail) ∧
          ∀ p ∈ pages, (∀ e ∈ p, e.isDrawCard = true) ∧ p.length ≤ 30 := by
  intro n
  induction n with
  | zero =>
      intro cards hlen k tail hk hk0
      have hnil : cards = [] := List.length_eq_zero.mp (Nat.le_zero.mp hlen)
      subst hnil
      exact ⟨[], by simp [labelEventsFrom, splitPages_showPage], by simp⟩
  | succ n ih =>
      intro cards hlen k tail hk hk0
      rcases cards with _ | ⟨c, cs⟩
      · exact ⟨[], by simp [labelEventsFrom, splitPages_showPage], by simp⟩
      have hblock : labelBlock k c = [PdfEvent.showPage, PdfEvent.drawCard c 0 0] := by
        rw [labelBlock, if_pos ⟨hk0, show k % labels_per_page = 0 from hk⟩,
          labels_per_page_eq, hk]
        rfl
      by_cases hsmall : cs.length ≤ 29
      · have hA := labelEventsFrom_no_break cs (k + 1) (by omega) (by omega)
        have hds : ∀ e ∈ PdfEvent.drawCard c 0 0 :: labelEventsFrom (k + 1) cs,
            e.isShowPage = false := by
          intro e he
          rcases List.mem_cons.mp he with rfl | he
          · rfl
          · exact isDrawCard_not_showPage e (hA.1 e he)
        refine ⟨[PdfEvent.drawCard c 0 0 :: labelEventsFrom (k + 1) cs], ?_, ?_⟩
        · rw [labelEventsFrom, hblock]
          simp only [List.cons_append, List.append_assoc, List.nil_append]
          rw [splitPages_showPage]
          have hpre := splitPages_draw_prefix
            (PdfEvent.drawCard c 0 0 :: labelEventsFrom (k + 1) cs) hds
            (PdfEvent.showPage :: tail) [] (splitPages tail) (splitPages_showPage tail)
          simp only [List.cons_append] at hpre
          rw [hpre]
          simp
        · intro p hp
          rcases List.mem_singleton.mp hp with rfl
          refine ⟨?_, ?_⟩
          · intro e he
            rcases List.mem_cons.mp he with rfl | he
            · rfl
            · exact hA.1 e he
          · rw [List.length_cons, hA.2]
            omega
      · have hcs29 : (cs.take 29).length = 29 := by
          rw [List.length_take]; omega
        have hsplitcs : cs.take 29 ++ cs.drop 29 = cs := List.take_append_drop 29 cs
        have hoff : k + 1 + (cs.take 29).length = k + 30 := by
          rw [hcs29]
        have hA := labelEventsFrom_no_break (cs.take 29) (k + 1)
          (by rw [hcs29]; omega) (by omega)
        obtain ⟨pages2, hp2, hprops2⟩ := ih (cs.drop 29)
          (by simp only [List.length_drop]; simp only [List.length_cons] at hlen; omega)
          (k + 30) tail (by omega) (by omega)
        have hsplitev : labelEventsFrom (k + 1) cs =
            labelEventsFrom (k + 1) (cs.take 29) ++
              labelEventsFrom (k + 30) (cs.drop 29) := by
          conv_lhs => rw [← hsplitcs]
          rw [labelEventsFrom_append, hoff]
        have hds : ∀ e ∈ PdfEvent.drawCard c 0 0 :: labelEventsFrom (k + 1) (cs.take 29),
            e.isShowPage = false := by
          intro e he
          rcases List.mem_cons.mp he with rfl | he
          · rfl
          · exact isDrawCard_not_showPage e (hA.1 e he)
        refine ⟨(PdfEvent.drawCard c 0 0 :: labelEventsFrom (k + 1) (cs.take 29)) :: pages2,
          ?_, ?_⟩
        · rw [labelEventsFrom, hblock, hsplitev]
          simp only [List.cons_append, List.append_assoc, List.nil_append]
          rw [splitPages_showPage]
          have hpre := splitPages_draw_prefix
            (PdfEvent.drawCard c 0 0 :: labelEventsFrom (k + 1) (cs.take 29)) hds
            (labelEventsFrom (k + 30) (cs.drop 29) ++ PdfEvent.showPage :: tail)
            [] (pages2 ++ splitPages tail) hp2
          simp only [List.cons_append, List.append_assoc] at hpre
          rw [hpre]
          simp
        · intro p hp
          rcases List.mem_cons.mp hp with rfl | hp
          · refine ⟨?_, ?_⟩
            · intro e he
              rcases List.mem_cons.mp he with rfl | he
              · rfl
              · exact hA.1 e he
            · rw [List.length_cons, hA.2, hcs29]
          · exact hprops2 p hp

/-- C7: if at least one label card was drawn the current label page is
finalized (`showPage`) before the dine-in summary is drawn, so the
document splits into label pages — each holding only card cells, at
most 30 of them — followed by exactly one summary page, which is
present even when there are no label cards (and is then the only
page). -/
theorem summary_page_separate (cards : List LabelCard) (dine : List (String × Nat)) :
    (cards ≠ [] →
      build_labels_events cards dine =
        labelEventsFrom 0 cards ++
          PdfEvent.showPage ::
            [PdfEvent.drawSummary (draw_dine_in_summary dine letterWidth)]) ∧
    ∃ pages,
      splitPages (build_labels_events cards dine) =
        pages ++ [[PdfEvent.drawSummary (draw_dine_in_summary dine letterWidth)]] ∧
      (∀ p ∈ pages, (∀ e ∈ p, e.isDrawCard = true) ∧ p.length ≤ 30) ∧
      (cards = [] → pages = []) := by
  constructor
  · intro hne
    rw [build_labels_events, if_neg (by simpa using hne)]
    simp
  rcases cards with _ | ⟨c, cs⟩
  · refine ⟨[], ?_, by simp, fun _ => rfl⟩
    rw [build_labels_events]
    simp [labelEventsFrom, splitPages_drawSummary, splitPages_nil]
  have hblock : labelBlock 0 c = [PdfEvent.drawCard c 0 0] := rfl
  have hbuild : build_labels_events (c :: cs) dine =
      (PdfEvent.drawCard c 0 0 :: labelEventsFrom 1 cs) ++
        PdfEvent.showPage ::
          [PdfEvent.drawSummary (draw_dine_in_summary dine letterWidth)] := by
    rw [build_labels_events, if_neg (by simp), labelEventsFrom, hblock]
    simp
  by_cases hsmall : cs.length ≤ 29
  · have hA := labelEventsFrom_no_break cs 1 (by omega) (by omega)
    have hds : ∀ e ∈ PdfEvent.drawCard c 0 0 :: labelEventsFrom 1 cs,
        e.isShowPage = false := by
      intro e he
      rcases List.mem_cons.mp he with rfl | he
      · rfl
      · exact isDrawCard_not_showPage e (hA.1 e he)
    refine ⟨[PdfEvent.drawCard c 0 0 :: labelEventsFrom 1 cs], ?_, ?_, by simp⟩
    · rw [hbuild]
      have hpre := splitPages_draw_prefix
        (PdfEvent.drawCard c 0 0 :: labelEventsFrom 1 cs) hds
        (PdfEvent.showPage ::
          [PdfEvent.drawSummary (draw_dine_in_summary dine letterWidth)])
        [] (splitPages [PdfEvent.drawSummary (draw_dine_in_summary dine letterWidth)])
        (splitPages_showPage _)
      rw [hpre]
      simp [splitPages_drawSummary, splitPages_nil]
    · intro p hp
      rcases List.mem_singleton.mp hp with rfl
      refine ⟨?_, ?_⟩
      · intro e he
        rcases List.mem_cons.mp he with rfl | he
        · rfl
        · exact hA.1 e he
      · rw [List.length_cons, hA.2]
        omega
  · have hcs29 : (cs.take 29).length = 29 := by
      rw [List.length_take]; omega
    have hsplitcs : cs.take 29 ++ cs.drop 29 = cs := List.take_append_drop 29 cs
    have hoff : 1 + (cs.take 29).length = 30 := by rw [hcs29]
    have hA := labelEventsFrom_no_break (cs.take 29) 1 (by rw [hcs29]) (by omega)
    obtain ⟨pages2, hp2, hprops2⟩ := splitPages_label_chunk (cs.drop 29).length
      (cs.drop 29) le_rfl 30
      [PdfEvent.drawSummary (draw_dine_in_summary dine letterWidth)]
      (by omega) (by omega)
    have hsplitev : labelEventsFrom 1 cs =
        labelEventsFrom 1 (cs.take 29) ++ labelEventsFrom 30 (cs.drop 29) := by
      conv_lhs => rw [← hsplitcs]
      rw [labelEventsFrom_append, hoff]
    have hds : ∀ e ∈ PdfEvent.drawCard c 0 0 :: labelEventsFrom 1 (cs.take 29),
        e.isShowPage = false := by
      intro e he
      rcases List.mem_cons.mp he with rfl | he
      · rfl
      · exact isDrawCard_not_showPage e (hA.1 e he)
    refine ⟨(PdfEvent.drawCard c 0 0 :: labelEventsFrom 1 (cs.take 29)) :: pages2,
      ?_, ?_, by simp⟩
    · rw [hbuild, hsplitev]
      have hpre := splitPages_draw_prefix
        (PdfEvent.drawCard c 0 0 :: labelEventsFrom 1 (cs.take 29)) hds
        (labelEventsFrom 30 (cs.drop 29) ++
          PdfEvent.showPage ::
            [PdfEvent.drawSummary (draw_dine_in_summary dine letterWidth)])
        []
        (pages2 ++
          splitPages [PdfEvent.drawSummary (draw_dine_in_summary dine letterWidth)])
        hp2
      simp only [List.cons_append, List.append_assoc] at hpre ⊢
      rw [hpre]
      simp [splitPages_drawSummary, splitPages_nil]
    · intro p hp
      rcases List.mem_cons.mp hp with rfl | hp
      · refine ⟨?_, ?_⟩
        · intro e he
          rcases List.mem_cons.mp he with rfl | he
          · rfl
          · exact hA.1 e he
        · rw [List.length_cons, hA.2, hcs29]
      · exact hprops2 p hp

/-- Witness for `summary_page_separate`: with no label cards the
document is exactly one summary page. -/
theorem summary_page_separate_witness :
    splitPages (build_labels_events [] [("Ann", 2)]) =
      [[PdfEvent.drawSummary (draw_dine_in_summary [("Ann", 2)] letterWidth)]] ∧
    build_labels_events [{ name := "Ann", count := some 1 }] [("Ann", 2)] =
      labelEventsFrom 0 [{ name := "Ann", count := some 1 }] ++
        PdfEvent.showPage ::
          [PdfEvent.drawSummary (draw_dine_in_summary [("Ann", 2)] letterWidth)] := by
  constructor
  · obtain ⟨-, pages, h1, -, h3⟩ := summary_page_separate [] [("Ann", 2)]
    rw [h1, h3 rfl]
    rfl
  · exact (summary_page_separate [{ name := "Ann", count := some 1 }] [("Ann", 2)]).1
      (by simp)

/-- Number of page breaks the layout loop has emitted up to and
including the block of card `i`: one for every positive multiple of 30
not exceeding `i`, that is `i / 30`. -/
theorem countShow_take (cards : List LabelCard) :
    ∀ i, i < cards.length →
      (labelEventsFrom 0 (cards.take (i + 1))).countP (fun e => e.isShowPage) = i / 30 := by
  intro i
  induction i with
  | zero =>
      intro h
      rcases cards with _ | ⟨c, cs⟩
      · simp at h
      · show (labelEventsFrom 0 [c]).countP (fun e => e.isShowPage) = 0
        rw [labelEventsFrom, labelEventsFrom, labelBlock, if_neg (by simp)]
        rfl
  | succ i ihp =>
      intro h
      have hi : i < cards.length := by omega
      have htake : cards.take (i + 2) = cards.take (i + 1) ++ [cards[i + 1]] := by
        rw [List.take_succ, List.getElem?_eq_getElem h]
        rfl
      have hlen : (cards.take (i + 1)).length = i + 1 := by
        rw [List.length_take]; omega
      rw [htake, labelEventsFrom_append, List.countP_append, hlen, ihp hi]
      have hone : (labelEventsFrom (0 + (i + 1)) [cards[i + 1]]).countP
          (fun e => e.isShowPage) = if (i + 1) % 30 = 0 then 1 else 0 := by
        rw [Nat.zero_add, labelEventsFrom, labelEventsFrom, List.append_nil, labelBlock]
        by_cases h30 : (i + 1) % labels_per_page = 0
        · rw [if_pos ⟨Nat.succ_ne_zero i, h30⟩, if_pos (by rw [← labels_per_page_eq]; exact h30)]
          rfl
        · rw [if_neg (by rintro ⟨-, hc⟩; exact h30 hc),
            if_neg (by rw [← labels_per_page_eq]; exact h30)]
          rfl
      rw [hone]
      by_cases h30 : (i + 1) % 30 = 0
      · rw [if_pos h30]; omega
      · rw [if_neg h30]; omega

/-- C3: the card at zero-based index `i` is drawn in column
`(i mod 30) mod 3` and row `(i mod 30) div 3` of its page; a fresh page
is begun for it exactly when `i > 0` and `i mod 30 = 0`; and the number
of page breaks emitted before its page shows it lands on page `i / 30`,
so pages fill with 30 cells before a new page starts. -/
theorem grid_placement (cards : List LabelCard) (i : Nat) (h : i < cards.length) :
    labelEventsFrom 0 cards =
      labelEventsFrom 0 (cards.take i) ++
        (labelBlock i cards[i] ++ labelEventsFrom (i + 1) (cards.drop (i + 1))) ∧
    labelBlock i cards[i] =
      (if 0 < i ∧ i % 30 = 0 then [PdfEvent.showPage] else []) ++
        [PdfEvent.drawCard cards[i] (i % 30 % 3) (i % 30 / 3)] ∧
    (labelEventsFrom 0 (cards.take (i + 1))).countP (fun e => e.isShowPage) = i / 30 := by
  refine ⟨?_, ?_, countShow_take cards i h⟩
  · have hsplit : cards.take i ++ cards[i] :: cards.drop (i + 1) = cards := by
      rw [List.getElem_cons_drop]
      exact List.take_append_drop i cards
    have hlen : (cards.take i).length = i := by
      rw [List.length_take]; omega
    conv_lhs => rw [← hsplit]
    rw [labelEventsFrom_append, hlen, Nat.zero_add, labelEventsFrom]
  · rw [labelBlock, labels_per_page_eq]
    have hiff : (i ≠ 0 ∧ i % 30 = 0) ↔ (0 < i ∧ i % 30 = 0) := by
      constructor <;> rintro ⟨h1, h2⟩ <;> exact ⟨by omega, h2⟩
    rw [if_congr hiff rfl rfl]
    rfl

/-- Witness for `grid_placement` with 31 one-label cards: card 30 sits
behind exactly one page break, `30 / 30 = 1`. -/
theorem grid_placement_witness :
    (labelEventsFrom 0 ((List.replicate 31
        ({ name := "X", count := some 1 } : LabelCard)).take (30 + 1))).countP
      (fun e => e.isShowPage) = 30 / 30 :=
  (grid_placement (List.replicate 31 { name := "X", count := some 1 }) 30 (by simp)).2.2

/-! ### Lemmas about the schema normalizer -/

/-- The header lookup finds a key exactly when some input header
normalizes to it. -/
theorem lookupHeader_isSome (cols : List String) (key : String) :
    (lookupHeader cols key).isSome = true ↔ ∃ col ∈ cols, normKey col = key := by
  rw [lookupHeader, List.getLast?_isSome]
  constructor
  · intro hne
    rcases List.exists_mem_of_ne_nil _ hne with ⟨c, hc⟩
    rcases List.mem_filter.mp hc with ⟨hcc, hck⟩
    exact ⟨c, hcc, by simpa using hck⟩
  · rintro ⟨c, hc, hk⟩
    intro hnil
    have : c ∈ ([] : List String) := by
      rw [← hnil]
      exact List.mem_filter.mpr ⟨hc, by simpa using hk⟩
    simp at this
  
/-- A canonical field is present in the rename map built by the alias
fold exactly when it was present in the accumulator already or some
alias for it occurs (normalized) among the input headers. -/
theorem foldl_rename_resolved (cols : List String) :
    ∀ (al : List (String × String)) (acc : List (String × String)) (canon : String),
      ((al.foldl (fun rename_map p =>
          match lookupHeader cols p.1 with
          | some orig =>
              if rename_map.any (fun q => q.1 = p.2) then rename_map
              else rename_map ++ [(p.2, orig)]
          | none => rename_map) acc).any (fun q => q.1 = canon) = true) ↔
      (acc.any (fun q => q.1 = canon) = true ∨
        ∃ p ∈ al, p.2 = canon ∧ ∃ col ∈ cols, normKey col = p.1) := by
  intro al
  induction al with
  | nil =>
      intro acc canon
      simp
  | cons p rest ih =>
      intro acc canon
      rw [List.foldl_cons]
      rcases hl : lookupHeader cols p.1 with _ | orig
      · rw [ih]
        have hnp : ¬ ∃ col ∈ cols, normKey col = p.1 := by
          intro hex
          have := (lookupHeader_isSome cols p.1).mpr hex
          rw [hl] at this
          simp at this
        constructor
        · rintro (h | ⟨p2, hp2, hc, hcol⟩)
          · exact Or.inl h
          · exact Or.inr ⟨p2, List.mem_cons_of_mem p hp2, hc, hcol⟩
        · rintro (h | ⟨p2, hp2, hc, hcol⟩)
          · exact Or.inl h
          · rcases List.mem_cons.mp hp2 with rfl | hp2
            · exact absurd hcol hnp
            · exact Or.inr ⟨p2, hp2, hc, hcol⟩
      · dsimp only
        have hyes : ∃ col ∈ cols, normKey col = p.1 := by
          apply (lookupHeader_isSome cols p.1).mp
          rw [hl]
          rfl
        by_cases hacc : acc.any (fun q => q.1 = p.2) = true
        · rw [if_pos hacc, ih]
          constructor
          · rintro (h | ⟨p2, hp2, hc, hcol⟩)
            · exact Or.inl h
            · exact Or.inr ⟨p2, List.mem_cons_of_mem p hp2, hc, hcol⟩
          · rintro (h | ⟨p2, hp2, hc, hcol⟩)
            · exact Or.inl h
            · rcases List.mem_cons.mp hp2 with rfl | hp2
              · left
                rcases List.any_eq_true.mp hacc with ⟨q, hq, hq2⟩
                refine List.any_eq_true.mpr ⟨q, hq, ?_⟩
                simp only [decide_eq_true_eq] at hq2 ⊢
                rw [hq2, hc]
              · exact Or.inr ⟨p2, hp2, hc, hcol⟩
        · rw [if_neg hacc, ih]
          have happ : (acc ++ [(p.2, orig)]).any (fun q => q.1 = canon) = true ↔
              (acc.any (fun q => q.1 = canon) = true ∨ p.2 = canon) := by
            rw [List.any_append]
            simp
          rw [happ]
          constructor
          · rintro ((h | h) | ⟨p2, hp2, hc, hcol⟩)
            · exact Or.inl h
            · exact Or.inr ⟨p, List.mem_cons_self p rest, h, hyes⟩
            · exact Or.inr ⟨p2, List.mem_cons_of_mem p hp2, hc, hcol⟩
          · rintro (h | ⟨p2, hp2, hc, hcol⟩)
            · exact Or.inl (Or.inl h)
            · rcases List.mem_cons.mp hp2 with rfl | hp2
              · exact Or.inl (Or.inr hc)
              · exact Or.inr ⟨p2, hp2, hc, hcol⟩

/-- A canonical field is reported missing exactly when it is canonical
and no input header normalizes to any of its alias spellings. -/
theorem mem_missingFields (cols : List String) (f : String) :
    f ∈ missingFields cols ↔
      f ∈ canonicalFields ∧
        ∀ p ∈ column_aliases, p.2 = f → ∀ col ∈ cols, normKey col ≠ p.1 := by
  rw [missingFields, List.mem_filter]
  have hchar := foldl_rename_resolved cols column_aliases [] f
  rw [buildRenameMap]
  constructor
  · rintro ⟨hmem, hflt⟩
    refine ⟨hmem, ?_⟩
    intro p hp hpf col hcol hkey
    have : (column_aliases.foldl (fun rename_map p =>
        match lookupHeader cols p.1 with
        | some orig =>
            if rename_map.any (fun q => q.1 = p.2) then rename_map
            else rename_map ++ [(p.2, orig)]
        | none => rename_map) []).any (fun q => q.1 = f) = true :=
      hchar.mpr (Or.inr ⟨p, hp, hpf, col, hcol, hkey⟩)
    rw [this] at hflt
    simp at hflt
  · rintro ⟨hmem, hnone⟩
    refine ⟨hmem, ?_⟩
    have : ¬ ((column_aliases.foldl (fun rename_map p =>
        match lookupHeader cols p.1 with
        | some orig =>
            if rename_map.any (fun q => q.1 = p.2) then rename_map
            else rename_map ++ [(p.2, orig)]
        | none => rename_map) []).any (fun q => q.1 = f) = true) := by
      intro habs
      rcases hchar.mp habs with h | ⟨p, hp, hpf, col, hcol, hkey⟩
      · simp at h
      · exact hnone p hp hpf col hcol hkey
    simp only [Bool.not_eq_true] at this
    rw [this]
    rfl

/-- C4: the pipeline fails exactly when at least one of the three
canonical fields has no accepted alias among the input headers; the
error message enumerates every missing canonical field at once; it is
raised by the normalizer before any aggregation, so no card list or
summary is produced; and when every field resolves the pipeline
succeeds. -/
theorem schema_error_iff (df : DataFrame) :
    ((∃ f ∈ canonicalFields,
        ∀ p ∈ column_aliases, p.2 = f → ∀ col ∈ df.columns, normKey col ≠ p.1) ↔
      prepare_label_cards df =
        Except.error
          ("Missing required columns: " ++
            String.intercalate ", " (missingFields df.columns))) ∧
    (missingFields df.columns = [] →
      prepare_label_cards df =
        Except.ok
          (sequenceLabelCards (aggregate (extractRows df (buildRenameMap df.columns))),
           dineInSummary (aggregate (extractRows df (buildRenameMap df.columns))))) ∧
    (∀ f, f ∈ missingFields df.columns ↔
      f ∈ canonicalFields ∧
        ∀ p ∈ column_aliases, p.2 = f → ∀ col ∈ df.columns, normKey col ≠ p.1) := by
  have hchar : ∀ f, f ∈ missingFields df.columns ↔
      f ∈ canonicalFields ∧
        ∀ p ∈ column_aliases, p.2 = f → ∀ col ∈ df.columns, normKey col ≠ p.1 :=
    fun f => mem_missingFields df.columns f
  by_cases hm : missingFields df.columns = []
  · have hok : prepare_label_cards df =
        Except.ok
          (sequenceLabelCards (aggregate (extractRows df (buildRenameMap df.columns))),
           dineInSummary (aggregate (extractRows df (buildRenameMap df.columns)))) := by
      rw [prepare_label_cards, normalize_orders_dataframe]
      dsimp only
      rw [if_pos (by rw [hm]; rfl)]
    refine ⟨?_, fun _ => hok, hchar⟩
    constructor
    · rintro ⟨f, hf, hnone⟩
      have : f ∈ missingFields df.columns := (hchar f).mpr ⟨hf, hnone⟩
      rw [hm] at this
      simp at this
    · intro habs
      rw [hok] at habs
      simp at habs
  · have herr : prepare_label_cards df =
        Except.error
          ("Missing required columns: " ++
            String.intercalate ", " (missingFields df.columns)) := by
      rw [prepare_label_cards, normalize_orders_dataframe]
      dsimp only
      rw [if_neg (by simpa [List.isEmpty_iff] using hm)]
    refine ⟨⟨fun _ => herr, fun _ => ?_⟩, fun h => absurd h hm, hchar⟩
    rcases List.exists_mem_of_ne_nil _ hm with ⟨f, hf⟩
    rcases (hchar f).mp hf with ⟨hfc, hnone⟩
    exact ⟨f, hfc, hnone⟩

/-- Witness for `schema_error_iff`: with a header whose interior
whitespace keeps it from matching any carry-out alias, the pipeline
reports the carry_out field missing. -/
theorem schema_error_iff_witness :
    prepare_label_cards ⟨["name", "Carry  Out", "dine in"], []⟩ =
      Except.error
        ("Missing required columns: " ++
          String.intercalate ", " (missingFields ["name", "Carry  Out", "dine in"])) :=
  (schema_error_iff ⟨["name", "Carry  Out", "dine in"], []⟩).1.mp
    ⟨"carry_out", by decide, by decide⟩

/-- C9 counterexample: the header "Carry  Out" (two interior spaces)
equals the alias "carry out" once letter case and whitespace are
disregarded, yet the normalizer leaves carry_out unresolved and
errors — alias matching trims only leading and trailing whitespace. -/
theorem alias_whitespace_counterexample :
    ("Carry  Out".data.filter (fun c => !c.isWhitespace)).map Char.toLower =
        ("carry out".data.filter (fun c => !c.isWhitespace)).map Char.toLower ∧
    missingFields ["name", "Carry  Out", "dine in"] = ["carry_out"] ∧
    normalize_orders_dataframe ["name", "Carry  Out", "dine in"] =
      Except.error "Missing required columns: carry_out" :=
  ⟨by decide, by decide, rfl⟩

/-- C9 (amended): alias matching is case-insensitive and insensitive to
leading and trailing whitespace only: every input header whose trimmed,
lowercased spelling equals an enumerated alias exactly resolves the
corresponding canonical field, which is then not reported missing. -/
theorem alias_matching_resolves (cols : List String) (col : String)
    (al : String × String) (hcol : col ∈ cols) (hal : al ∈ column_aliases)
    (hkey : normKey col = al.1) :
    (buildRenameMap cols).any (fun q => q.1 = al.2) = true ∧
      al.2 ∉ missingFields cols := by
  have hres : (buildRenameMap cols).any (fun q => q.1 = al.2) = true := by
    rw [buildRenameMap]
    exact (foldl_rename_resolved cols column_aliases [] al.2).mpr
      (Or.inr ⟨al, hal, rfl, col, hcol, hkey⟩)
  refine ⟨hres, ?_⟩
  intro habs
  rcases (mem_missingFields cols al.2).mp habs with ⟨-, hnone⟩
  exact hnone al hal rfl col hcol hkey

/-- Witness for `alias_matching_resolves`: the header "  NAME " (case
and outer whitespace differences only) resolves the name field. -/
theorem alias_matching_resolves_witness :
    (buildRenameMap ["  NAME ", "carry-out", "dinein"]).any
        (fun q => q.1 = "name") = true ∧
      "name" ∉ missingFields ["  NAME ", "carry-out", "dinein"] :=
  alias_matching_resolves ["  NAME ", "carry-out", "dinein"] "  NAME "
    ("name", "name") (by decide) (by decide) (by decide)

/-! ### Lemmas about the order aggregator -/

/-- Truncation toward zero of a non-positive rational is non-positive. -/
theorem truncInt_nonpos (q : Rat) (h : q ≤ 0) : truncInt q ≤ 0 := by
  rw [truncInt]
  have hnum : q.num ≤ 0 := Rat.num_nonpos.mpr h
  have hposneg : 0 ≤ -q.num := by omega
  have : (-q.num).tdiv q.den = -(q.num.tdiv q.den) := Int.neg_tdiv q.num q.den
  have hnn : 0 ≤ (-q.num).tdiv q.den :=
    Int.tdiv_nonneg hposneg (by exact_mod_cast Nat.zero_le q.den)
  omega

/-- On non-negative rationals, truncation toward zero is the floor. -/
theorem truncInt_eq_floor (q : Rat) (h : 0 ≤ q) : truncInt q = ⌊q⌋ := by
  have hnum : 0 ≤ q.num := Rat.num_nonneg.mpr h
  obtain ⟨n, hn⟩ := Int.eq_ofNat_of_zero_le hnum
  rw [truncInt, Rat.floor_def, hn]
  rfl

/-- Filtering out the rows with empty trimmed names before cleaning
changes nothing: the cleaning step drops exactly those rows. -/
theorem cleanRows_drop_empty (rows : List RawOrderRow) :
    cleanRows (rows.filter (fun r => trimStr r.name ≠ "")) = cleanRows rows := by
  induction rows with
  | nil => rfl
  | cons r rest ih =>
      simp only [cleanRows, List.filter_cons, List.map_cons] at ih ⊢
      by_cases hp : trimStr r.name = ""
      · have hc : ¬ (decide (trimStr r.name ≠ "") = true) := by simpa using hp
        rw [if_neg hc, ih, if_neg hc]
      · have hc : decide (trimStr r.name ≠ "") = true := by simpa using hp
        rw [if_pos hc]
        simp only [List.map_cons, List.filter_cons]
        rw [if_pos hc, if_pos hc, ih]

/-- C5: the claim that the Order Aggregator never raises regardless of
cell contents is contradicted by the code: a cell whose value parses to
a non-finite float — for example "inf", or "1e400", which overflows to
infinity — survives `fillna(0)` and makes `.astype(int)` at
src/app.py:223-228 raise the pandas ValueError, aborting the
aggregation.  The claimed defaults hold on every other input: an
unparsable cell coerces to 0, finite parses agree with the infallible
coercion the rest of the model uses (truncated and clamped, so -1
coerces to 0), and rows with empty trimmed names are dropped
silently. -/
theorem aggregator_nonfinite_raises :
    coerceCountChecked NumValue.posInf = Except.error nonFiniteMsg ∧
    coerceCountChecked NumValue.negInf = Except.error nonFiniteMsg ∧
    coerceColumnChecked [NumValue.finite 2, NumValue.posInf] =
      Except.error nonFiniteMsg ∧
    coerceCountChecked NumValue.nan = Except.ok (coerceCount none) ∧
    (∀ q : Rat, coerceCountChecked (NumValue.finite q) =
      Except.ok (coerceCount (some q))) ∧
    coerceCountChecked (NumValue.finite (-1)) = Except.ok 0 ∧
    ∀ rows : List RawOrderRow,
      aggregate (rows.filter (fun r => trimStr r.name ≠ "")) = aggregate rows := by
  refine ⟨rfl, rfl, rfl, rfl, fun q => rfl, rfl, ?_⟩
  intro rows
  rw [aggregate, aggregate, cleanRows_drop_empty]

instance : IsTotal String nameLe :=
  ⟨fun a b => le_total a.data b.data⟩

instance : IsTrans String nameLe :=
  ⟨fun _ _ _ hab hbc => le_trans hab hbc⟩

/-- Two strings with equal character data are equal. -/
theorem string_data_inj (a b : String) (h : a.data = b.data) : a = b := by
  cases a
  cases b
  exact congrArg String.mk h

/-- C6: the aggregate groups rows by exact trimmed name under
case-sensitive string equality — its names are exactly the cleaned-row
names, each appearing once, sorted strictly ascending in the ordinal
(code-point) order — each entry sums the counts of exactly the cleaned
rows bearing its name, and the concrete pair Alice/alice stays two
distinct groups. -/
theorem aggregate_grouping (rows : List RawOrderRow) (r : OrderRow) :
    List.Pairwise (fun a b : String => a.data < b.data)
      ((aggregate rows).map (fun x => x.name)) ∧
    (∀ n : String, n ∈ (aggregate rows).map (fun x => x.name) ↔
      n ∈ (cleanRows rows).map (fun x => x.name)) ∧
    (r ∈ aggregate rows →
      r.carry_out = (((cleanRows rows).filter (fun x => x.name = r.name)).map
          (fun x => x.carry_out)).sum ∧
      r.dine_in = (((cleanRows rows).filter (fun x => x.name = r.name)).map
          (fun x => x.dine_in)).sum) ∧
    (aggregate [⟨"Alice", some 3, some 2⟩, ⟨"alice", some 1, none⟩]).map
        (fun x => x.name) = ["Alice", "alice"] := by
  have hnames : (aggregate rows).map (fun x => x.name) =
      (((cleanRows rows).map (fun x => x.name)).dedup).insertionSort nameLe := by
    rw [aggregate]
    rw [List.map_map]
    exact List.map_id' _
  refine ⟨?_, ?_, ?_, by decide⟩
  · rw [hnames]
    have hsorted : List.Sorted nameLe
        ((((cleanRows rows).map (fun x => x.name)).dedup).insertionSort nameLe) :=
      List.sorted_insertionSort nameLe _
    have hnodup : (List.insertionSort nameLe
        (((cleanRows rows).map (fun x => x.name)).dedup)).Nodup :=
      (List.perm_insertionSort nameLe _).symm.nodup
        (List.nodup_dedup _)
    have hpw := List.Pairwise.and hsorted hnodup
    exact hpw.imp (fun hab =>
      lt_of_le_of_ne hab.1 (fun he => hab.2 (string_data_inj _ _ he)))
  · intro n
    rw [hnames, (List.perm_insertionSort nameLe _).mem_iff, List.mem_dedup]
  · intro hr
    rw [aggregate] at hr
    rcases List.mem_map.mp hr with ⟨n, _, hn⟩
    have hname : r.name = n := by rw [← hn]
    subst hname
    exact ⟨by rw [← hn], by rw [← hn]⟩

/-- Witness for `aggregate_grouping`: two raw rows named " Alice " and
"Alice" merge into one aggregated order with summed counts. -/
theorem aggregate_grouping_witness :
    (⟨"Alice", 5, 3⟩ : OrderRow).carry_out =
      (((cleanRows [⟨" Alice ", some 3, some 2⟩, ⟨"Alice", some 2, some 1⟩]).filter
          (fun x => x.name = (⟨"Alice", 5, 3⟩ : OrderRow).name)).map
        (fun x => x.carry_out)).sum :=
  ((aggregate_grouping [⟨" Alice ", some 3, some 2⟩, ⟨"Alice", some 2, some 1⟩]
      ⟨"Alice", 5, 3⟩).2.2.1 (by decide)).1

/-! ### Lemmas about the dine-in summary and numeric coercion -/

/-- C8: the dine-in summary carries exactly one (name, count) entry per
aggregated row with positive dine-in count, keeps the ascending name
order it inherits from a sorted aggregate, and renders either the
no-entries message (empty list) or the header row plus one row per
entry with the printable width split 70/30. -/
theorem dine_summary_spec (agg : List OrderRow) (pw : Rat) :
    dineInSummary agg =
      (agg.filter (fun r => 0 < r.dine_in)).map (fun r => (r.name, r.dine_in)) ∧
    (∀ p ∈ dineInSummary agg, 0 < p.2) ∧
    (List.Pairwise (fun a b : OrderRow => a.name.data < b.name.data) agg →
      List.Pairwise (fun a b : String × Nat => a.1.data < b.1.data)
        (dineInSummary agg)) ∧
    (dineInSummary agg = [] →
      draw_dine_in_summary (dineInSummary agg) pw =
        ⟨"Dine-In Summary", SummaryBody.noEntries "No dine-in orders."⟩) ∧
    (dineInSummary agg ≠ [] →
      draw_dine_in_summary (dineInSummary agg) pw =
        ⟨"Dine-In Summary",
         SummaryBody.table
           (["Name", "Number"] ::
             (dineInSummary agg).map (fun p => [p.1, toString p.2]))
           [(pw - 2 * PAGE_MARGIN_X) * (7 / 10),
            (pw - 2 * PAGE_MARGIN_X) * (3 / 10)]⟩) := by
  refine ⟨rfl, ?_, ?_, ?_, ?_⟩
  · intro p hp
    rcases List.mem_map.mp hp with ⟨r, hr, rfl⟩
    have := (List.mem_filter.mp hr).2
    simpa using this
  · intro hpw
    exact List.pairwise_map.mpr ((hpw.sublist (List.filter_sublist _)))
  · intro h
    rw [h]
    rfl
  · intro h
    rw [draw_dine_in_summary]
    rw [if_neg (by simpa [List.isEmpty_iff] using h)]

/-- Witness for `dine_summary_spec` on concrete aggregates: positive
counts only, order, the empty rendering, and the table rendering. -/
theorem dine_summary_spec_witness :
    (∀ p ∈ dineInSummary [(⟨"Al", 0, 2⟩ : OrderRow)], 0 < p.2) ∧
    List.Pairwise (fun a b : String × Nat => a.1.data < b.1.data)
      (dineInSummary [(⟨"Al", 0, 2⟩ : OrderRow)]) ∧
    draw_dine_in_summary (dineInSummary [(⟨"B", 1, 0⟩ : OrderRow)]) 612 =
      ⟨"Dine-In Summary", SummaryBody.noEntries "No dine-in orders."⟩ ∧
    draw_dine_in_summary (dineInSummary [(⟨"Al", 0, 2⟩ : OrderRow)]) 612 =
      ⟨"Dine-In Summary",
       SummaryBody.table
         (["Name", "Number"] ::
           (dineInSummary [(⟨"Al", 0, 2⟩ : OrderRow)]).map
             (fun p => [p.1, toString p.2]))
         [(612 - 2 * PAGE_MARGIN_X) * (7 / 10),
          (612 - 2 * PAGE_MARGIN_X) * (3 / 10)]⟩ :=
  ⟨(dine_summary_spec [⟨"Al", 0, 2⟩] 612).2.1,
   (dine_summary_spec [⟨"Al", 0, 2⟩] 612).2.2.1 (by decide),
   (dine_summary_spec [⟨"B", 1, 0⟩] 612).2.2.2.1 (by decide),
   (dine_summary_spec [⟨"Al", 0, 2⟩] 612).2.2.2.2 (by decide)⟩

/-- C10: a numeric cell that parses to a non-integer value is not
defaulted to 0 — the parsed value is truncated (floor, on the
non-negative values that survive the clamp), so 2.9 contributes 2 — and
only a cell that fails to parse at all becomes 0; a parsed value of at
least 1 never coerces to 0. -/
theorem numeric_truncation (q : Rat) :
    (0 ≤ q → (coerceCount (some q) : Int) = ⌊q⌋) ∧
    (1 ≤ q → coerceCount (some q) ≠ 0) ∧
    coerceCount (some (mkRat 29 10)) = 2 ∧
    coerceCount none = 0 := by
  have hfl : 0 ≤ q → (coerceCount (some q) : Int) = ⌊q⌋ := by
    intro h
    show (((truncInt q).toNat : Nat) : Int) = ⌊q⌋
    rw [truncInt_eq_floor q h]
    exact Int.toNat_of_nonneg (Int.floor_nonneg.mpr h)
  refine ⟨hfl, ?_, by decide, rfl⟩
  intro h1 habs
  have h0 : 0 ≤ q := le_trans zero_le_one h1
  have hq := hfl h0
  rw [habs] at hq
  have hfl1 : (1 : Int) ≤ ⌊q⌋ := by
    rw [Int.le_floor]
    exact_mod_cast h1
  simp at hq
  omega

/-- Witness for `numeric_truncation` at 29/10. -/
theorem numeric_truncation_witness :
    ((coerceCount (some (mkRat 29 10)) : Int) = ⌊(mkRat 29 10 : Rat)⌋) ∧
    coerceCount (some (mkRat 29 10)) ≠ 0 :=
  ⟨(numeric_truncation (mkRat 29 10)).1 (by decide),
   (numeric_truncation (mkRat 29 10)).2.1 (by decide)⟩
